import Mathlib

set_option maxRecDepth 100000

/-!
Verification of the gitignore.lol aggregation pipeline (app/main.py and
main.py of the repository).  Strings are modelled as lists of characters;
the Python primitives used by the code (str.lower, str.strip, str.split,
str.splitlines, str.capitalize, substring membership) are embedded for the
ASCII fragment relevant to this service, with the exact line-boundary and
whitespace character sets of CPython.  File-system reads performed by
get_file_contents are modelled by a lookup function from on-disk file
names to optional contents; the catalog listing (get_file_list) is an
external collaborator and enters as the file_list parameter, exactly as it
does in the Python signature.
-/

namespace Gitignore

/-- Strings as lists of characters. -/
abbrev Str := List Char

/-- The line-boundary characters of CPython str.splitlines. -/
def isLineBreak (c : Char) : Bool :=
  c.toNat = 10 || c.toNat = 13 || c.toNat = 11 || c.toNat = 12 || c.toNat = 28 ||
  c.toNat = 29 || c.toNat = 30 || c.toNat = 133 || c.toNat = 8232 || c.toNat = 8233

/-- The whitespace characters stripped by CPython str.strip(). -/
def isPySpace (c : Char) : Bool :=
  (9 ≤ c.toNat && c.toNat ≤ 13) || (28 ≤ c.toNat && c.toNat ≤ 31) || c.toNat = 32 ||
  c.toNat = 133 || c.toNat = 160 || c.toNat = 5760 || (8192 ≤ c.toNat && c.toNat ≤ 8202) ||
  c.toNat = 8232 || c.toNat = 8233 || c.toNat = 8239 || c.toNat = 8287 || c.toNat = 12288

/-- ASCII fragment of the per-character lowering done by str.lower. -/
def charLower (c : Char) : Char :=
  if h : 65 ≤ c.toNat ∧ c.toNat ≤ 90 then
    Char.ofNatAux (c.toNat + 32) (Or.inl (by omega))
  else c

/-- ASCII fragment of the per-character uppercasing done on the first
character by str.capitalize. -/
def charUpper (c : Char) : Char :=
  if h : 97 ≤ c.toNat ∧ c.toNat ≤ 122 then
    Char.ofNatAux (c.toNat - 32) (Or.inl (by omega))
  else c

/-- str.lower. -/
def pyLower (s : Str) : Str := s.map charLower

/-- str.strip(): remove leading and trailing whitespace. -/
def pyStrip (s : Str) : Str :=
  ((s.dropWhile isPySpace).reverse.dropWhile isPySpace).reverse

/-- str.capitalize(): first character uppercased, the rest lowercased. -/
def pyCapitalize : Str → Str
  | [] => []
  | c :: rest => charUpper c :: rest.map charLower

/-- Capitalisation of the first letter only, as the specification words it
(the rest of the string untouched). -/
def capFirstSpec : Str → Str
  | [] => []
  | c :: rest => charUpper c :: rest

/-- A string is lower-case when str.lower fixes it. -/
def isLowerStr (s : Str) : Prop := pyLower s = s

instance isLowerStr_decidable (s : Str) : Decidable (isLowerStr s) :=
  inferInstanceAs (Decidable (pyLower s = s))

/-- A string containing no line-boundary character. -/
def breakFree (s : Str) : Prop := ∀ c ∈ s, isLineBreak c = false

/-- Prepend a character to the first line of a line list (auxiliary for
pySplitlines). -/
def consFirst (c : Char) : List Str → List Str
  | [] => [[c]]
  | l :: ls => (c :: l) :: ls

/-- str.splitlines(): split at line boundaries, treating a carriage-return
plus line-feed pair as one boundary, and producing no trailing empty line
for a string that ends at a boundary. -/
def pySplitlines : Str → List Str
  | [] => []
  | '\r' :: '\n' :: rest => [] :: pySplitlines rest
  | '\r' :: rest => [] :: pySplitlines rest
  | c :: rest =>
    if isLineBreak c then [] :: pySplitlines rest else consFirst c (pySplitlines rest)

/-- str.split(sep) for a one-character separator: all fields are kept,
including empty ones. -/
def pySplitOn (sep : Char) : Str → List Str
  | [] => [[]]
  | c :: rest =>
    if c = sep then [] :: pySplitOn sep rest
    else
      match pySplitOn sep rest with
      | [] => [[c]]
      | l :: ls => (c :: l) :: ls

/-- sep.join for the newline separator. -/
def joinNL : List Str → Str
  | [] => []
  | [x] => x
  | x :: y :: tl => x ++ ('\n' :: joinNL (y :: tl))

/-- Boolean list-prefix test (auxiliary for substring membership). -/
def isPrefixList : Str → Str → Bool
  | [], _ => true
  | _ :: _, [] => false
  | a :: as, b :: bs => if a = b then isPrefixList as bs else false

/-- Python substring membership: sub in s. -/
def containsSub (sub : Str) : Str → Bool
  | [] => isPrefixList sub []
  | c :: rest => if isPrefixList sub (c :: rest) then true else containsSub sub rest

/-- The constant alias payload IDEA_STRING of app/main.py. -/
def IDEA_STRING_src : String := "#  JetBrains specific template is maintained in a separate JetBrains.gitignore that can\n#  be found at https://github.com/github/gitignore/blob/main/Global/JetBrains.gitignore\n#  and can be added to the global gitignore or merged into this file.  For a more nuclear\n#  option (not recommended) you can uncomment the following to ignore the entire idea folder.\n.idea/"

/-- The alias payload as a character list. -/
def IDEA_STRING : Str := IDEA_STRING_src.data

/-- The alias group JETBRAINS_STRINGS of app/main.py. -/
def JETBRAINS_STRINGS_src : List String :=
  [r"idea", r"pycharm", r"webstorm", r"phpstorm", r"rider", r"goland",
   r"intellij", r"appcode", r"clion", r"datagrip", r"resharper", r"rustrover"]

/-- The alias group as character lists. -/
def JETBRAINS_STRINGS : List Str := JETBRAINS_STRINGS_src.map String.data

/-- The template-file suffix ".gitignore". -/
def gitSuffix_src : String := ".gitignore"

/-- The template-file suffix as a character list. -/
def gitSuffix : Str := gitSuffix_src.data

/-- The text before the identifier in a generated section header. -/
def headerPre_src : String := "# ------------- "

/-- Header-line text before the identifier. -/
def headerPre : Str := headerPre_src.data

/-- The text after the identifier in a generated section header, including
the newline ending the header line and the blank line that follows. -/
def headerPost_src : String := " -------------\n\n"

/-- Header-line text after the identifier. -/
def headerPost : Str := headerPost_src.data

/-- Detail message of the 404 HTTPException in get_file_contents. -/
def notFoundMsg_src : String := "Could not find language file"

/-- The 404 detail message as a character list. -/
def notFoundMsg : Str := notFoundMsg_src.data

/-- Detail message of the 400 HTTPException in get_language_ignore_file. -/
def badReqMsg_src : String := "No languages provided"

/-- The 400 detail message as a character list. -/
def badReqMsg : Str := badReqMsg_src.data

/-- Failures escaping the pipeline: an HTTPException with status and
detail, or an uncaught file-system error from open(). -/
inductive PipeError where
  | http (status : Nat) (detail : Str)
  | ioFailure
deriving DecidableEq

/-- Outcome of a pipeline step: a returned value or a raised failure. -/
inductive Res (α : Type) where
  | ok (val : α)
  | err (e : PipeError)
deriving DecidableEq

/-- The suffix-appending step of get_file_contents: append ".gitignore"
when it does not occur as a substring of the identifier. -/
def withSuffix (lang : Str) : Str :=
  if containsSub gitSuffix lang then lang else lang ++ gitSuffix

/-- get_file_contents of app/main.py: alias short-circuit, suffix
normalisation, membership test against the lower-cased catalog list, and a
read of the file whose name is the capitalized key, with the generated
header prepended.  fs models the file system under the repository
directory; file_list is the lower-cased catalog listing. -/
def get_file_contents (lang : Str) (fs : Str → Option Str) (file_list : List Str) : Res Str :=
  if lang ∈ JETBRAINS_STRINGS then Res.ok IDEA_STRING
  else if withSuffix lang ∈ file_list then
    match fs (pyCapitalize (withSuffix lang)) with
    | some content => Res.ok (headerPre ++ pyCapitalize (withSuffix lang) ++ headerPost ++ content)
    | none => Res.err PipeError.ioFailure
  else Res.err (PipeError.http 404 notFoundMsg)

/-- The scan of post_process_contents: seen is the key set of the
occurred_lines dictionary; a line already seen becomes empty, a new line
is kept and recorded. -/
def dedupGo (seen : List Str) : List Str → List Str
  | [] => []
  | x :: xs => if x ∈ seen then ([] : Str) :: dedupGo seen xs else x :: dedupGo (x :: seen) xs

/-- post_process_contents of app/main.py: join the sections with a single
newline, split into lines, blank every line equal to an already recorded
one, and re-join. -/
def post_process_contents (contents : List Str) : Str :=
  joinNL (dedupGo [] (pySplitlines (joinNL contents)))

/-- The identifier-list computation of get_language_ignore_file: lower-case
and strip the whole path segment, split on commas when a comma is present,
and drop empty entries. -/
def parseLangs (languages : Str) : List Str :=
  (if (',' : Char) ∈ pyStrip (pyLower languages) then
      pySplitOn ',' (pyStrip (pyLower languages))
    else [pyStrip (pyLower languages)]).filter (fun l => l != ([] : Str))

/-- The resolution loop of get_language_ignore_file: resolve identifiers
left to right, aborting at the first raised failure. -/
def resolveAll (fs : Str → Option Str) (file_list : List Str) : List Str → Res (List Str)
  | [] => Res.ok []
  | l :: ls =>
    match get_file_contents l fs file_list with
    | Res.ok c =>
      match resolveAll fs file_list ls with
      | Res.ok cs => Res.ok (c :: cs)
      | Res.err e => Res.err e
    | Res.err e => Res.err e

/-- get_language_ignore_file of app/main.py: reject an empty identifier
list with 400, resolve every identifier, and post-process the collected
sections. -/
def get_language_ignore_file (languages : Str) (fs : Str → Option Str) (file_list : List Str) :
    Res Str :=
  if parseLangs languages = [] then Res.err (PipeError.http 400 badReqMsg)
  else
    match resolveAll fs file_list (parseLangs languages) with
    | Res.ok cs => Res.ok (post_process_contents cs)
    | Res.err e => Res.err e

/-- The deduplication scan as the specification words it: a line is
blanked exactly when it equals some line occurring earlier in the scanned
line list; pre carries the lines already scanned. -/
def specDedupGo (pre : List Str) : List Str → List Str
  | [] => []
  | x :: xs => (if x ∈ pre then ([] : Str) else x) :: specDedupGo (pre ++ [x]) xs

/-- Request normalisation as claim C6 words it: split the raw segment on
commas, lower-case and strip each resulting identifier, and discard empty
entries. -/
def specParseLangs (raw : Str) : List Str :=
  ((pySplitOn ',' raw).map (fun l => pyStrip (pyLower l))).filter (fun l => l != ([] : Str))

/-- Request normalisation as the code actually performs it: lower-case and
strip the whole segment, split on commas, discard empty entries. -/
def specParseWhole (raw : Str) : List Str :=
  (pySplitOn ',' (pyStrip (pyLower raw))).filter (fun l => l != ([] : Str))

/-- Number of lines of a string, counted the way the code itself counts
lines (str.splitlines). -/
def lineCount (s : Str) : Nat := (pySplitlines s).length

/-- Concrete identifier used in witnesses. -/
def pythonStr : String := r"python"

/-- Concrete catalog key used in witnesses. -/
def pythonGit : String := r"python.gitignore"

/-- Concrete on-disk file name used in witnesses. -/
def capPythonGit : String := r"Python.gitignore"

/-- The display name the specification claims for the python header. -/
def capPython : String := r"Python"

/-- Concrete template body used in witnesses. -/
def pycBody : String := "*.pyc\n"

/-- Concrete alias identifier used in witnesses. -/
def ideaStr : String := r"idea"

/-- A like-named catalog entry for the alias identifier. -/
def ideaGit : String := r"idea.gitignore"

/-- Concrete unresolvable identifier used in witnesses. -/
def nonexistentStr : String := r"nonexistentlang"

/-- Raw path segment with whitespace adjoining a comma. -/
def rawAtrail : String := "a ,b"

/-- Raw path segment consisting of a comma only. -/
def commaOnly : String := r","

/-- Raw path segment mixing a resolvable and an unresolvable identifier. -/
def reqPyNosuch : String := "python,nosuch"

/-- Two-line string with distinct lines, used in witnesses. -/
def abLines : String := "a\nb"

/-- Two-line string whose second line repeats the first. -/
def aDup : String := "a\na"

/-- One-character line used in counterexamples. -/
def aLine : Str := ['a']

/-- A one-file file system: Python.gitignore holding the concrete body. -/
def exampleFs : Str → Option Str :=
  fun p => if p = capPythonGit.data then some pycBody.data else none

/-- A one-entry lower-cased catalog listing. -/
def exampleCatalog : List Str := [pythonGit.data]

theorem charOfNatAux_toNat (n : Nat) (h : n.isValidChar) : (Char.ofNatAux n h).toNat = n := rfl

theorem charLower_idem (c : Char) : charLower (charLower c) = charLower c := by
  unfold charLower
  by_cases h : 65 ≤ c.toNat ∧ c.toNat ≤ 90
  · rw [dif_pos h, dif_neg]
    rw [charOfNatAux_toNat]
    omega
  · rw [dif_neg h, dif_neg h]

theorem pyLower_idem (s : Str) : pyLower (pyLower s) = pyLower s := by
  unfold pyLower
  rw [List.map_map]
  apply List.map_congr_left
  intro c _
  exact charLower_idem c

theorem isLowerStr_iff (s : Str) : isLowerStr s ↔ ∀ c ∈ s, charLower c = c := by
  unfold isLowerStr pyLower
  induction s with
  | nil => simp
  | cons a as ih =>
    simp only [List.map_cons, List.cons.injEq, List.mem_cons]
    constructor
    · rintro ⟨ha, hrest⟩ c hc
      rcases hc with hc | hc
      · rw [hc]; exact ha
      · exact (ih.mp hrest) c hc
    · intro h
      exact ⟨h a (Or.inl rfl), ih.mpr (fun c hc => h c (Or.inr hc))⟩

theorem isLowerStr_pyLower (s : Str) : isLowerStr (pyLower s) := pyLower_idem s

theorem isLowerStr_of_chars_mem (s t : Str) (ht : isLowerStr t) (h : ∀ c ∈ s, c ∈ t) :
    isLowerStr s := by
  rw [isLowerStr_iff]
  intro c hc
  exact (isLowerStr_iff t).mp ht c (h c hc)

theorem pyLower_append (a b : Str) : pyLower (a ++ b) = pyLower a ++ pyLower b :=
  List.map_append charLower a b

theorem isLowerStr_append (a b : Str) (ha : isLowerStr a) (hb : isLowerStr b) :
    isLowerStr (a ++ b) := by
  unfold isLowerStr
  rw [pyLower_append, ha, hb]

theorem gitSuffix_lower : isLowerStr gitSuffix := by
  unfold isLowerStr
  decide

theorem isLowerStr_withSuffix (lang : Str) (h : isLowerStr lang) : isLowerStr (withSuffix lang) := by
  unfold withSuffix
  by_cases hc : containsSub gitSuffix lang = true
  · rw [if_pos hc]; exact h
  · rw [if_neg hc]; exact isLowerStr_append lang gitSuffix h gitSuffix_lower

theorem pyCapitalize_eq_capFirst (s : Str) (h : isLowerStr s) : pyCapitalize s = capFirstSpec s := by
  cases s with
  | nil => rfl
  | cons c rest =>
    have h2 : pyLower (c :: rest) = c :: rest := h
    unfold pyLower at h2
    rw [List.map_cons] at h2
    have h3 : List.map charLower rest = rest := ((List.cons.injEq _ _ _ _).mp h2).2
    show charUpper c :: List.map charLower rest = charUpper c :: rest
    rw [h3]

theorem mem_of_mem_dropWhile (p : Char → Bool) (l : Str) (c : Char)
    (h : c ∈ l.dropWhile p) : c ∈ l := by
  induction l with
  | nil => simp [List.dropWhile] at h
  | cons a as ih =>
    rw [List.dropWhile_cons] at h
    by_cases hp : p a = true
    · rw [if_pos hp] at h
      exact List.mem_cons_of_mem a (ih h)
    · rw [if_neg hp] at h
      exact h

theorem mem_of_mem_pyStrip (s : Str) (c : Char) (h : c ∈ pyStrip s) : c ∈ s := by
  unfold pyStrip at h
  rw [List.mem_reverse] at h
  have h1 := mem_of_mem_dropWhile _ _ _ h
  rw [List.mem_reverse] at h1
  exact mem_of_mem_dropWhile _ _ _ h1

theorem pySplitOn_ne_nil (sep : Char) (s : Str) : pySplitOn sep s ≠ [] := by
  cases s with
  | nil => simp [pySplitOn]
  | cons c rest =>
    unfold pySplitOn
    by_cases hc : c = sep
    · rw [if_pos hc]; simp
    · rw [if_neg hc]
      cases pySplitOn sep rest with
      | nil => simp
      | cons l ls => simp

theorem pySplitOn_no_sep (sep : Char) (s : Str) (h : sep ∉ s) : pySplitOn sep s = [s] := by
  induction s with
  | nil => rfl
  | cons c rest ih =>
    unfold pySplitOn
    have hc : c ≠ sep := fun he => h (he ▸ List.mem_cons_self c rest)
    rw [if_neg hc]
    rw [ih (fun hm => h (List.mem_cons_of_mem c hm))]

theorem mem_pySplitOn_chars (sep : Char) (s : Str) :
    ∀ x ∈ pySplitOn sep s, ∀ c ∈ x, c ∈ s := by
  induction s with
  | nil =>
    intro x hx c hc
    simp [pySplitOn] at hx
    rw [hx] at hc
    simp at hc
  | cons a rest ih =>
    intro x hx c hc
    unfold pySplitOn at hx
    by_cases ha : a = sep
    · rw [if_pos ha] at hx
      rcases List.mem_cons.mp hx with hx | hx
      · rw [hx] at hc; simp at hc
      · exact List.mem_cons_of_mem a (ih x hx c hc)
    · rw [if_neg ha] at hx
      cases hsp : pySplitOn sep rest with
      | nil => exact absurd hsp (pySplitOn_ne_nil sep rest)
      | cons l ls =>
        rw [hsp] at hx
        rcases List.mem_cons.mp hx with hx | hx
        · rw [hx] at hc
          rcases List.mem_cons.mp hc with hc | hc
          · rw [hc]; exact List.mem_cons_self a rest
          · exact List.mem_cons_of_mem a (ih l (hsp ▸ List.mem_cons_self l ls) c hc)
        · exact List.mem_cons_of_mem a (ih x (hsp ▸ List.mem_cons_of_mem l hx) c hc)

theorem parseLangs_eq_specWhole (raw : Str) : parseLangs raw = specParseWhole raw := by
  unfold parseLangs specParseWhole
  by_cases hc : (',' : Char) ∈ pyStrip (pyLower raw)
  · rw [if_pos hc]
  · rw [if_neg hc, pySplitOn_no_sep ',' _ hc]

theorem parseLangs_lower (raw : Str) : ∀ l ∈ parseLangs raw, isLowerStr l := by
  intro l hl
  rw [parseLangs_eq_specWhole] at hl
  unfold specParseWhole at hl
  have hl2 := List.mem_of_mem_filter hl
  apply isLowerStr_of_chars_mem l (pyLower raw) (isLowerStr_pyLower raw)
  intro c hc
  exact mem_of_mem_pyStrip _ c (mem_pySplitOn_chars ',' _ l hl2 c hc)

theorem breakFree_nil : breakFree ([] : Str) := fun c hc => absurd hc (List.not_mem_nil c)

theorem ne_cr_of_notbreak (c : Char) (h : isLineBreak c = false) : c ≠ '\r' := by
  intro he
  rw [he] at h
  exact absurd h (by decide)

theorem pySplitlines_cons_notbreak (c : Char) (rest : Str) (h : isLineBreak c = false) :
    pySplitlines (c :: rest) = consFirst c (pySplitlines rest) := by
  have hr : c ≠ '\r' := ne_cr_of_notbreak c h
  rw [pySplitlines.eq_4 c rest (fun _ hc _ => hr hc) (fun hc => hr hc)]
  rw [if_neg (by rw [h]; exact fun hc => Bool.noConfusion hc)]

theorem pySplitlines_line_append :
    ∀ (x : Str), breakFree x → ∀ r : Str, pySplitlines (x ++ '\n' :: r) = x :: pySplitlines r := by
  intro x
  induction x with
  | nil => intro _ r; rfl
  | cons c xs ih =>
    intro hx r
    have hc : isLineBreak c = false := hx c (List.mem_cons_self c xs)
    have hxs : breakFree xs := fun d hd => hx d (List.mem_cons_of_mem c hd)
    show pySplitlines (c :: (xs ++ '\n' :: r)) = (c :: xs) :: pySplitlines r
    rw [pySplitlines_cons_notbreak c _ hc, ih hxs r]
    rfl

theorem pySplitlines_singleton :
    ∀ (x : Str), breakFree x → x ≠ [] → pySplitlines x = [x] := by
  intro x
  induction x with
  | nil => intro _ h; exact absurd rfl h
  | cons c xs ih =>
    intro hx _
    have hc : isLineBreak c = false := hx c (List.mem_cons_self c xs)
    have hxs : breakFree xs := fun d hd => hx d (List.mem_cons_of_mem c hd)
    rw [pySplitlines_cons_notbreak c xs hc]
    cases xs with
    | nil => rfl
    | cons d ds =>
      rw [ih hxs (List.cons_ne_nil d ds)]
      rfl

theorem pySplitlines_joinNL :
    ∀ (d : List Str), (∀ x ∈ d, breakFree x) → d.getLast? ≠ some ([] : Str) →
      pySplitlines (joinNL d) = d := by
  intro d
  induction d with
  | nil => intro _ _; rfl
  | cons x tl ih =>
    intro hf hl
    cases tl with
    | nil =>
      have hx : x ≠ [] := by
        intro he
        apply hl
        rw [he]
        rfl
      show pySplitlines (joinNL [x]) = [x]
      rw [show joinNL [x] = x from rfl]
      exact pySplitlines_singleton x (hf x (List.mem_cons_self x [])) hx
    | cons y tl2 =>
      show pySplitlines (x ++ '\n' :: joinNL (y :: tl2)) = x :: y :: tl2
      rw [pySplitlines_line_append x (hf x (List.mem_cons_self x (y :: tl2))) _]
      congr 1
      apply ih (fun z hz => hf z (List.mem_cons_of_mem x hz))
      rw [← List.getLast?_cons_cons (a := x)]
      exact hl

theorem splitlines_breakFree_aux :
    ∀ (n : Nat) (s : Str), s.length ≤ n → ∀ x ∈ pySplitlines s, breakFree x := by
  intro n
  induction n with
  | zero =>
    intro s hs x hx
    rw [List.length_eq_zero.mp (Nat.le_zero.mp hs)] at hx
    simp [pySplitlines] at hx
  | succ n ih =>
    intro s hs x hx
    cases s with
    | nil => simp [pySplitlines] at hx
    | cons c rest =>
      rw [List.length_cons] at hs
      by_cases hcr : c = '\r'
      · subst hcr
        cases rest with
        | nil =>
          rw [pySplitlines.eq_3 [] (fun _ he => List.noConfusion he)] at hx
          rcases List.mem_cons.mp hx with hx | hx
          · rw [hx]; exact breakFree_nil
          · rw [show pySplitlines [] = [] from rfl] at hx
            exact absurd hx (List.not_mem_nil x)
        | cons c2 r2 =>
          rw [List.length_cons] at hs
          by_cases h2 : c2 = '\n'
          · subst h2
            rw [pySplitlines.eq_2] at hx
            rcases List.mem_cons.mp hx with hx | hx
            · rw [hx]; exact breakFree_nil
            · exact ih r2 (by omega) x hx
          · rw [pySplitlines.eq_3 (c2 :: r2)
                (fun r1 he => h2 ((List.cons.injEq c2 r2 '\n' r1).mp he).1)] at hx
            rcases List.mem_cons.mp hx with hx | hx
            · rw [hx]; exact breakFree_nil
            · exact ih (c2 :: r2) (by rw [List.length_cons]; omega) x hx
      · rw [pySplitlines.eq_4 c rest (fun _ hc _ => hcr hc) (fun hc => hcr hc)] at hx
        by_cases hb : isLineBreak c = true
        · rw [if_pos hb] at hx
          rcases List.mem_cons.mp hx with hx | hx
          · rw [hx]; exact breakFree_nil
          · exact ih rest (by omega) x hx
        · rw [if_neg hb] at hx
          have hbf : isLineBreak c = false := by
            revert hb
            cases isLineBreak c <;> simp
          cases hsp : pySplitlines rest with
          | nil =>
            rw [hsp] at hx
            rcases List.mem_cons.mp hx with hx | hx
            · rw [hx]
              intro d hd
              rw [List.mem_singleton.mp hd]
              exact hbf
            · exact absurd hx (List.not_mem_nil x)
          | cons l ls =>
            rw [hsp] at hx
            rcases List.mem_cons.mp hx with hx | hx
            · rw [hx]
              intro d hd
              rcases List.mem_cons.mp hd with hd | hd
              · rw [hd]; exact hbf
              · exact ih rest (by omega) l (hsp ▸ List.mem_cons_self l ls) d hd
            · exact ih rest (by omega) x (hsp ▸ List.mem_cons_of_mem l hx)

theorem breakFree_of_mem_pySplitlines (s : Str) (x : Str) (hx : x ∈ pySplitlines s) :
    breakFree x :=
  splitlines_breakFree_aux s.length s (Nat.le_refl _) x hx

theorem dedupGo_length (L : List Str) : ∀ seen, (dedupGo seen L).length = L.length := by
  induction L with
  | nil => intro seen; rfl
  | cons x xs ih =>
    intro seen
    unfold dedupGo
    by_cases hx : x ∈ seen
    · rw [if_pos hx, List.length_cons, List.length_cons, ih seen]
    · rw [if_neg hx, List.length_cons, List.length_cons, ih (x :: seen)]

theorem dedupGo_eq_specDedupGo (L : List Str) :
    ∀ (seen pre : List Str), (∀ y : Str, y ∈ seen ↔ y ∈ pre) →
      dedupGo seen L = specDedupGo pre L := by
  induction L with
  | nil => intro seen pre _; rfl
  | cons x xs ih =>
    intro seen pre h
    unfold dedupGo specDedupGo
    by_cases hx : x ∈ seen
    · rw [if_pos hx, if_pos ((h x).mp hx)]
      congr 1
      apply ih
      intro y
      rw [h y, List.mem_append, List.mem_singleton]
      constructor
      · exact fun hy => Or.inl hy
      · rintro (hy | hy)
        · exact hy
        · rw [hy]; exact (h x).mp hx
    · rw [if_neg hx, if_neg (fun hc => hx ((h x).mpr hc))]
      congr 1
      apply ih
      intro y
      rw [List.mem_cons, List.mem_append, List.mem_singleton, h y]
      exact or_comm

theorem specDedupGo_getD (L : List Str) :
    ∀ (pre : List Str) (i : Nat),
      (specDedupGo pre L).getD i [] =
        if L.getD i [] ∈ pre ++ L.take i then [] else L.getD i [] := by
  induction L with
  | nil =>
    intro pre i
    simp only [specDedupGo, List.getD_nil, List.take_nil, List.append_nil]
    split <;> rfl
  | cons x xs ih =>
    intro pre i
    cases i with
    | zero =>
      show (specDedupGo pre (x :: xs)).getD 0 [] = _
      unfold specDedupGo
      rw [List.getD_cons_zero, List.getD_cons_zero, List.take_zero, List.append_nil]
    | succ n =>
      show (specDedupGo pre (x :: xs)).getD (n + 1) [] = _
      unfold specDedupGo
      rw [List.getD_cons_succ, List.getD_cons_succ, List.take_succ_cons, ih (pre ++ [x]) n,
        List.append_assoc, List.singleton_append]

theorem dedupGo_idem (L : List Str) :
    ∀ (s1 s2 : List Str), (∀ x : Str, x ≠ [] → x ∈ s2 → x ∈ s1) →
      dedupGo s2 (dedupGo s1 L) = dedupGo s1 L := by
  induction L with
  | nil => intro s1 s2 _; rfl
  | cons x xs ih =>
    intro s1 s2 h
    by_cases hx : x ∈ s1
    · have e1 : dedupGo s1 (x :: xs) = ([] : Str) :: dedupGo s1 xs := by
        simp only [dedupGo]; rw [if_pos hx]
      rw [e1]
      by_cases he : ([] : Str) ∈ s2
      · have e2 : dedupGo s2 (([] : Str) :: dedupGo s1 xs) =
            ([] : Str) :: dedupGo s2 (dedupGo s1 xs) := by
          simp only [dedupGo]; rw [if_pos he]
        rw [e2, ih s1 s2 h]
      · have e2 : dedupGo s2 (([] : Str) :: dedupGo s1 xs) =
            ([] : Str) :: dedupGo (([] : Str) :: s2) (dedupGo s1 xs) := by
          simp only [dedupGo]; rw [if_neg he]
        rw [e2, ih s1 (([] : Str) :: s2) ?_]
        intro y hy hm
        rcases List.mem_cons.mp hm with hm | hm
        · exact absurd hm hy
        · exact h y hy hm
    · have e1 : dedupGo s1 (x :: xs) = x :: dedupGo (x :: s1) xs := by
        simp only [dedupGo]; rw [if_neg hx]
      rw [e1]
      by_cases hxe : x = ([] : Str)
      · subst hxe
        by_cases he : ([] : Str) ∈ s2
        · have e2 : dedupGo s2 (([] : Str) :: dedupGo (([] : Str) :: s1) xs) =
              ([] : Str) :: dedupGo s2 (dedupGo (([] : Str) :: s1) xs) := by
            simp only [dedupGo]; rw [if_pos he]
          rw [e2, ih (([] : Str) :: s1) s2
            (fun y hy hm => List.mem_cons_of_mem _ (h y hy hm))]
        · have e2 : dedupGo s2 (([] : Str) :: dedupGo (([] : Str) :: s1) xs) =
              ([] : Str) :: dedupGo (([] : Str) :: s2) (dedupGo (([] : Str) :: s1) xs) := by
            simp only [dedupGo]; rw [if_neg he]
          rw [e2, ih (([] : Str) :: s1) (([] : Str) :: s2) ?_]
          intro y hy hm
          rcases List.mem_cons.mp hm with hm | hm
          · exact absurd hm hy
          · exact List.mem_cons_of_mem _ (h y hy hm)
      · have hx2 : x ∉ s2 := fun hc => hx (h x hxe hc)
        have e2 : dedupGo s2 (x :: dedupGo (x :: s1) xs) =
            x :: dedupGo (x :: s2) (dedupGo (x :: s1) xs) := by
          simp only [dedupGo]; rw [if_neg hx2]
        rw [e2, ih (x :: s1) (x :: s2) ?_]
        intro y hy hm
        rcases List.mem_cons.mp hm with hm | hm
        · rw [hm]; exact List.mem_cons_self x s1
        · exact List.mem_cons_of_mem _ (h y hy hm)

theorem dedupGo_breakFree (L : List Str) :
    ∀ seen, (∀ x ∈ L, breakFree x) → ∀ x ∈ dedupGo seen L, breakFree x := by
  induction L with
  | nil => intro seen _ x hx; exact absurd hx (List.not_mem_nil x)
  | cons y ys ih =>
    intro seen hL x hx
    unfold dedupGo at hx
    by_cases hy : y ∈ seen
    · rw [if_pos hy] at hx
      rcases List.mem_cons.mp hx with hx | hx
      · rw [hx]; exact breakFree_nil
      · exact ih seen (fun z hz => hL z (List.mem_cons_of_mem y hz)) x hx
    · rw [if_neg hy] at hx
      rcases List.mem_cons.mp hx with hx | hx
      · rw [hx]; exact hL y (List.mem_cons_self y ys)
      · exact ih (y :: seen) (fun z hz => hL z (List.mem_cons_of_mem y hz)) x hx

theorem joinNL_singleton (x : Str) : joinNL [x] = x := rfl

theorem get_file_contents_err_shape (lang : Str) (fs : Str → Option Str) (fl : List Str)
    (e : PipeError) (h : get_file_contents lang fs fl = Res.err e) :
    e = PipeError.ioFailure ∨ e = PipeError.http 404 notFoundMsg := by
  unfold get_file_contents at h
  by_cases h1 : lang ∈ JETBRAINS_STRINGS
  · rw [if_pos h1] at h
    exact absurd h (by simp)
  · rw [if_neg h1] at h
    by_cases h2 : withSuffix lang ∈ fl
    · rw [if_pos h2] at h
      cases hfs : fs (pyCapitalize (withSuffix lang)) with
      | some c =>
        rw [hfs] at h
        simp at h
      | none =>
        rw [hfs] at h
        simp only [Res.err.injEq] at h
        exact Or.inl h.symm
    · rw [if_neg h2] at h
      simp only [Res.err.injEq] at h
      exact Or.inr h.symm

theorem resolveAll_err_shape (fs : Str → Option Str) (fl : List Str) :
    ∀ (langs : List Str) (e : PipeError), resolveAll fs fl langs = Res.err e →
      e = PipeError.ioFailure ∨ e = PipeError.http 404 notFoundMsg := by
  intro langs
  induction langs with
  | nil =>
    intro e h
    exact absurd h (by simp [resolveAll])
  | cons l ls ih =>
    intro e h
    cases hgc : get_file_contents l fs fl with
    | ok c =>
      simp only [resolveAll, hgc] at h
      cases hra : resolveAll fs fl ls with
      | ok cs => rw [hra] at h; simp at h
      | err e2 =>
        rw [hra] at h
        simp only [Res.err.injEq] at h
        exact h ▸ ih e2 hra
    | err e2 =>
      simp only [resolveAll, hgc, Res.err.injEq] at h
      exact h ▸ get_file_contents_err_shape l fs fl e2 hgc

theorem resolveAll_404 (fs : Str → Option Str) (fl : List Str) :
    ∀ (langs : List Str),
      (∀ l ∈ langs, get_file_contents l fs fl ≠ Res.err PipeError.ioFailure) →
      (∃ l ∈ langs, get_file_contents l fs fl = Res.err (PipeError.http 404 notFoundMsg)) →
      resolveAll fs fl langs = Res.err (PipeError.http 404 notFoundMsg) := by
  intro langs
  induction langs with
  | nil =>
    intro _ h404
    rcases h404 with ⟨l, hl, _⟩
    exact absurd hl (List.not_mem_nil l)
  | cons l ls ih =>
    intro hio h404
    cases hgc : get_file_contents l fs fl with
    | ok c =>
      have htail : ∃ x ∈ ls, get_file_contents x fs fl = Res.err (PipeError.http 404 notFoundMsg) := by
        rcases h404 with ⟨x, hx, he⟩
        rcases List.mem_cons.mp hx with hx | hx
        · rw [hx, hgc] at he
          exact absurd he (by simp)
        · exact ⟨x, hx, he⟩
      simp only [resolveAll, hgc]
      rw [ih (fun x hx => hio x (List.mem_cons_of_mem l hx)) htail]
    | err e =>
      have he : e = PipeError.http 404 notFoundMsg := by
        rcases get_file_contents_err_shape l fs fl e hgc with h | h
        · rw [h] at hgc
          exact absurd hgc (hio l (List.mem_cons_self l ls))
        · exact h
      simp only [resolveAll, hgc, he]

/-- Claim C1: aggregation joins the rendered sections with single newlines,
splits the joined text into lines, keeps the first occurrence of every line
verbatim, replaces each line that equals a line seen earlier in the scan by
an empty line, and re-joins all lines with newlines; post_process_contents
computes exactly this. -/
theorem post_process_contents_first_occurrence_spec (contents : List Str) :
    post_process_contents contents =
      joinNL (specDedupGo [] (pySplitlines (joinNL contents))) := by
  unfold post_process_contents
  rw [dedupGo_eq_specDedupGo _ [] [] (fun y => Iff.rfl)]

/-- Instance of claim C1 at a concrete section list. -/
theorem post_process_contents_first_occurrence_spec_instance :
    post_process_contents [aDup.data] =
      joinNL (specDedupGo [] (pySplitlines (joinNL [aDup.data]))) :=
  post_process_contents_first_occurrence_spec [aDup.data]

/-- Claim C7 as stated is false: for the two sections "a" and "a" the naive
newline-joined concatenation has two lines but the deduplicated aggregate
output, whose trailing line has been blanked, has one line (lines counted
as str.splitlines counts them, the way the code itself splits). -/
theorem lineCount_preserved_cex :
    lineCount (post_process_contents [aLine, aLine]) ≠ lineCount (joinNL [aLine, aLine]) := by
  decide

/-- Claim C7 (amended): the deduplication scan itself preserves the number
of line slots: the aggregate output is the newline-join of a line list of
exactly the length of the line list of the naive concatenation, in which a
line whose value occurs earlier is replaced by an empty line and every
first occurrence is kept; the line count of the final joined string can
nevertheless be smaller when trailing lines were blanked, since the final
join does not reproduce trailing empty lines. -/
theorem post_process_line_slots (contents : List Str) :
    ∃ l : List Str,
      post_process_contents contents = joinNL l ∧
      l.length = lineCount (joinNL contents) ∧
      ∀ i : Nat,
        ((pySplitlines (joinNL contents)).getD i [] ∈ (pySplitlines (joinNL contents)).take i →
          l.getD i [] = []) ∧
        ((pySplitlines (joinNL contents)).getD i [] ∉ (pySplitlines (joinNL contents)).take i →
          l.getD i [] = (pySplitlines (joinNL contents)).getD i []) := by
  refine ⟨dedupGo [] (pySplitlines (joinNL contents)), rfl, dedupGo_length _ _, ?_⟩
  intro i
  rw [dedupGo_eq_specDedupGo _ [] [] (fun y => Iff.rfl), specDedupGo_getD _ [] i,
    List.nil_append]
  constructor
  · intro h
    rw [if_pos h]
  · intro h
    rw [if_neg h]

/-- Instance of amended claim C7 at a concrete section list. -/
theorem post_process_line_slots_instance :
    ∃ l : List Str,
      post_process_contents [aLine, aLine] = joinNL l ∧
      l.length = lineCount (joinNL [aLine, aLine]) ∧
      ∀ i : Nat,
        ((pySplitlines (joinNL [aLine, aLine])).getD i [] ∈
            (pySplitlines (joinNL [aLine, aLine])).take i →
          l.getD i [] = []) ∧
        ((pySplitlines (joinNL [aLine, aLine])).getD i [] ∉
            (pySplitlines (joinNL [aLine, aLine])).take i →
          l.getD i [] = (pySplitlines (joinNL [aLine, aLine])).getD i []) :=
  post_process_line_slots [aLine, aLine]

/-- Claim C10 as stated is false: post-processing the single section
"a\na" yields "a\n", and post-processing that output again yields "a". -/
theorem post_process_idempotent_cex :
    post_process_contents [post_process_contents [aDup.data]] ≠
      post_process_contents [aDup.data] := by decide

/-- Claim C10 (amended): the post-processing pass is idempotent on every
string whose deduplicated line list does not end in an empty line; when it
does end in an empty line, the final newline-join drops that trailing
empty line and a second pass returns a strictly shorter string. -/
theorem post_process_idempotent_no_trailing_blank (s : Str)
    (h : (dedupGo [] (pySplitlines s)).getLast? ≠ some ([] : Str)) :
    post_process_contents [post_process_contents [s]] = post_process_contents [s] := by
  unfold post_process_contents
  rw [show joinNL [s] = s from rfl]
  rw [show joinNL [joinNL (dedupGo [] (pySplitlines s))] =
      joinNL (dedupGo [] (pySplitlines s)) from rfl]
  have hfree : ∀ x ∈ dedupGo [] (pySplitlines s), breakFree x :=
    dedupGo_breakFree (pySplitlines s) [] (fun y hy => breakFree_of_mem_pySplitlines s y hy)
  rw [pySplitlines_joinNL (dedupGo [] (pySplitlines s)) hfree h]
  exact congrArg joinNL (dedupGo_idem (pySplitlines s) [] [] (fun x _ hm => hm))

/-- Instance of amended claim C10 at a concrete two-line string. -/
theorem post_process_idempotent_no_trailing_blank_instance :
    post_process_contents [post_process_contents [abLines.data]] =
      post_process_contents [abLines.data] :=
  post_process_idempotent_no_trailing_blank abLines.data (by decide)

/-- Claim C2: for a non-alias lower-case identifier, resolution appends the
template-file suffix when it is not already present, decides membership on
the resulting all-lowercase key against the catalog list, and on a hit
reads the file at the path obtained by capitalizing the first letter of
that key; on a miss it fails with the 404 condition. -/
theorem get_file_contents_lookup_spec (lang key : Str) (fs : Str → Option Str) (fl : List Str)
    (hal : lang ∉ JETBRAINS_STRINGS) (hlow : isLowerStr lang)
    (hkey : key = withSuffix lang) :
    isLowerStr key ∧
    (key ∈ fl →
      get_file_contents lang fs fl =
        match fs (capFirstSpec key) with
        | some content => Res.ok (headerPre ++ capFirstSpec key ++ headerPost ++ content)
        | none => Res.err PipeError.ioFailure) ∧
    (key ∉ fl → get_file_contents lang fs fl = Res.err (PipeError.http 404 notFoundMsg)) := by
  subst hkey
  have hklow : isLowerStr (withSuffix lang) := isLowerStr_withSuffix lang hlow
  have hcap : pyCapitalize (withSuffix lang) = capFirstSpec (withSuffix lang) :=
    pyCapitalize_eq_capFirst _ hklow
  refine ⟨hklow, ?_, ?_⟩
  · intro hmem
    unfold get_file_contents
    rw [if_neg hal, if_pos hmem, hcap]
  · intro hmem
    unfold get_file_contents
    rw [if_neg hal, if_neg hmem]

/-- Instance of claim C2 at the identifier python against a one-entry
catalog. -/
theorem get_file_contents_lookup_spec_instance :
    isLowerStr pythonGit.data ∧
    (pythonGit.data ∈ exampleCatalog →
      get_file_contents pythonStr.data exampleFs exampleCatalog =
        match exampleFs (capFirstSpec pythonGit.data) with
        | some content => Res.ok (headerPre ++ capFirstSpec pythonGit.data ++ headerPost ++ content)
        | none => Res.err PipeError.ioFailure) ∧
    (pythonGit.data ∉ exampleCatalog →
      get_file_contents pythonStr.data exampleFs exampleCatalog =
        Res.err (PipeError.http 404 notFoundMsg)) :=
  get_file_contents_lookup_spec pythonStr.data pythonGit.data exampleFs exampleCatalog
    (by decide) (by decide) (by decide)

/-- Claim C3: every alias-group identifier resolves to the constant alias
payload, for every file system and every catalog list (so no catalog
lookup influences the result, even when a like-named catalog entry
exists), and the payload carries no generated header prefix. -/
theorem alias_payload_spec (lang : Str) (fs : Str → Option Str) (fl : List Str)
    (h : lang ∈ JETBRAINS_STRINGS) :
    get_file_contents lang fs fl = Res.ok IDEA_STRING ∧
    isPrefixList headerPre IDEA_STRING = false := by
  constructor
  · unfold get_file_contents
    rw [if_pos h]
  · decide

/-- Instance of claim C3: the identifier idea against a catalog that even
contains a like-named entry and a file system with no files. -/
theorem alias_payload_spec_instance :
    get_file_contents ideaStr.data (fun _ => none) [ideaGit.data] = Res.ok IDEA_STRING ∧
    isPrefixList headerPre IDEA_STRING = false :=
  alias_payload_spec ideaStr.data (fun _ => none) [ideaGit.data] (by decide)

/-- Claim C4 as stated is false at the concrete identifier
nonexistentlang: resolution does fail with 404, but the detail payload is
the fixed message "Could not find language file", which does not contain
the requested identifier. -/
theorem notFound_names_identifier_cex :
    get_file_contents nonexistentStr.data (fun _ => none) [] =
      Res.err (PipeError.http 404 notFoundMsg) ∧
    containsSub nonexistentStr.data notFoundMsg = false := by decide

/-- Claim C4 (amended): an identifier absent from both the alias group and
the catalog fails with a 404 NotFound condition whose detail is the fixed
message "Could not find language file", independent of the requested
identifier (so the payload does not, in general, name it). -/
theorem notFound_constant_detail (lang : Str) (fs : Str → Option Str) (fl : List Str)
    (hal : lang ∉ JETBRAINS_STRINGS) (hmem : withSuffix lang ∉ fl) :
    get_file_contents lang fs fl = Res.err (PipeError.http 404 notFoundMsg) := by
  unfold get_file_contents
  rw [if_neg hal, if_neg hmem]

/-- Instance of amended claim C4 at a concrete unresolvable identifier. -/
theorem notFound_constant_detail_instance :
    get_file_contents nonexistentStr.data exampleFs exampleCatalog =
      Res.err (PipeError.http 404 notFoundMsg) :=
  notFound_constant_detail nonexistentStr.data exampleFs exampleCatalog (by decide) (by decide)

/-- Claim C5 as stated is false: for the catalog entry python.gitignore
the rendered header line displays Python.gitignore, the capitalized full
template filename, not the capitalized suffix-stripped identifier
Python. -/
theorem header_shows_suffixed_name_cex :
    get_file_contents pythonStr.data exampleFs exampleCatalog =
      Res.ok (headerPre ++ capPythonGit.data ++ headerPost ++ pycBody.data) ∧
    get_file_contents pythonStr.data exampleFs exampleCatalog ≠
      Res.ok (headerPre ++ capPython.data ++ headerPost ++ pycBody.data) := by decide

/-- Claim C5 (amended): for a valid non-alias identifier present in the
catalog, rendering yields the header line, a blank line, and the exact
stored content, where the displayed name is the capitalization of the full
template filename — the identifier together with its .gitignore suffix —
rather than of the suffix-stripped identifier. -/
theorem render_header_full_filename (lang key content : Str) (fs : Str → Option Str)
    (fl : List Str) (hal : lang ∉ JETBRAINS_STRINGS) (hkey : key = withSuffix lang)
    (hmem : key ∈ fl) (hread : fs (pyCapitalize key) = some content) :
    get_file_contents lang fs fl =
      Res.ok (headerPre ++ pyCapitalize key ++ headerPost ++ content) := by
  subst hkey
  unfold get_file_contents
  rw [if_neg hal, if_pos hmem, hread]

/-- Instance of amended claim C5 at the identifier python. -/
theorem render_header_full_filename_instance :
    get_file_contents pythonStr.data exampleFs exampleCatalog =
      Res.ok (headerPre ++ pyCapitalize pythonGit.data ++ headerPost ++ pycBody.data) :=
  render_header_full_filename pythonStr.data pythonGit.data pycBody.data exampleFs
    exampleCatalog (by decide) (by decide) (by decide) (by decide)

/-- Claim C6 as stated is false at the raw segment "a ,b": the code
lower-cases and strips the whole segment before splitting on commas, so
the first identifier keeps its trailing space, whereas per-identifier
trimming would have removed it. -/
theorem parse_per_identifier_strip_cex :
    parseLangs rawAtrail.data ≠ specParseLangs rawAtrail.data := by decide

/-- Claim C6 (amended): the request identifier list is obtained by
lower-casing and stripping the whole raw segment, then splitting on commas
and discarding empty entries; every resulting identifier is lower-case,
but whitespace adjoining an interior comma is preserved — only the outer
edges of the whole segment are trimmed. -/
theorem parse_whole_segment_spec (raw : Str) :
    parseLangs raw = specParseWhole raw ∧ ∀ l ∈ parseLangs raw, isLowerStr l :=
  ⟨parseLangs_eq_specWhole raw, parseLangs_lower raw⟩

/-- Instance of amended claim C6 at the raw segment "a ,b". -/
theorem parse_whole_segment_spec_instance :
    parseLangs rawAtrail.data = specParseWhole rawAtrail.data ∧
    ∀ l ∈ parseLangs rawAtrail.data, isLowerStr l :=
  parse_whole_segment_spec rawAtrail.data

/-- Claim C8: the request fails with the 400 BadRequest condition exactly
when the normalized identifier list — the whole segment lower-cased and
stripped, split on commas, empty entries discarded — is empty. -/
theorem badRequest_iff_empty_request (languages : Str) (fs : Str → Option Str) (fl : List Str) :
    get_language_ignore_file languages fs fl = Res.err (PipeError.http 400 badReqMsg) ↔
      specParseWhole languages = [] := by
  rw [← parseLangs_eq_specWhole]
  unfold get_language_ignore_file
  by_cases hp : parseLangs languages = []
  · rw [if_pos hp]
    exact ⟨fun _ => hp, fun _ => rfl⟩
  · rw [if_neg hp]
    constructor
    · intro h
      cases hres : resolveAll fs fl (parseLangs languages) with
      | ok cs =>
        simp only [hres] at h
        exact absurd h (by simp)
      | err e =>
        simp only [hres, Res.err.injEq] at h
        rcases resolveAll_err_shape fs fl _ e hres with he | he
        · rw [he] at h
          exact absurd h (by decide)
        · rw [he] at h
          exact absurd h (by decide)
    · intro h
      exact absurd h hp

/-- Instance of claim C8: the raw segment consisting of a bare comma is
rejected with 400. -/
theorem badRequest_iff_empty_request_instance :
    get_language_ignore_file commaOnly.data exampleFs exampleCatalog =
      Res.err (PipeError.http 400 badReqMsg) :=
  (badRequest_iff_empty_request commaOnly.data exampleFs exampleCatalog).mpr (by decide)

/-- Claim C9: when some identifier of the request list fails resolution
with the 404 NotFound condition, and no identifier fails with a raw
file-system error, the whole request aborts with that NotFound condition —
no aggregate output is produced for the identifiers that did resolve. -/
theorem single_failure_aborts (languages : Str) (fs : Str → Option Str) (fl : List Str)
    (hio : ∀ l ∈ parseLangs languages, get_file_contents l fs fl ≠ Res.err PipeError.ioFailure)
    (h404 : ∃ l ∈ parseLangs languages,
      get_file_contents l fs fl = Res.err (PipeError.http 404 notFoundMsg)) :
    get_language_ignore_file languages fs fl = Res.err (PipeError.http 404 notFoundMsg) := by
  have hne : parseLangs languages ≠ [] := by
    rcases h404 with ⟨l, hl, _⟩
    intro hnil
    rw [hnil] at hl
    exact absurd hl (List.not_mem_nil l)
  unfold get_language_ignore_file
  rw [if_neg hne]
  simp only [resolveAll_404 fs fl (parseLangs languages) hio h404]

/-- Instance of claim C9: the request python,nosuch aborts with 404 even
though python resolves. -/
theorem single_failure_aborts_instance :
    get_language_ignore_file reqPyNosuch.data exampleFs exampleCatalog =
      Res.err (PipeError.http 404 notFoundMsg) :=
  single_failure_aborts reqPyNosuch.data exampleFs exampleCatalog (by decide) (by decide)

end Gitignore
